import Mathlib

/-!
Shallow embedding of `lipid_gene_sankey_app.py` (white vs beige adipocyte
Sankey pipeline) and proofs about its specification.

Tables are embedded as lists of records; pandas float columns are embedded
as rational (for the orderings/filters the script performs on them) or,
where the exact value of `np.log2` matters, as real numbers.  A missing /
non-numeric cell (pandas `NaN`) is embedded as `none`; every pandas
comparison against `NaN` is `False`, which the embedding reproduces
case-by-case at each use site.
-/

namespace LipidGeneSankey

/-- A raw input row: the identifier cell (possibly null, i.e. `NaN`) plus the
rest of the row, opaque here. -/
structure RawRow (ρ : Type) where
  ident : Option String
  payload : ρ
deriving DecidableEq

/-- Lines 39-40: `transcriptome[transcriptome[gene_id_col] != 'Class']` then
`[.notna()]`.  (`NaN != 'Class'` is `True` in pandas, so the null check is the
second filter, as in the source.) -/
def cleanTranscriptome {ρ : Type} (rows : List (RawRow ρ)) : List (RawRow ρ) :=
  (rows.filter (fun r => !(r.ident == some "Class"))).filter (fun r => r.ident.isSome)

/-- Lines 43-45: drop ident `'Label'`, drop ident `'Metabolite'`, drop null idents. -/
def cleanLipids {ρ : Type} (rows : List (RawRow ρ)) : List (RawRow ρ) :=
  ((rows.filter (fun r => !(r.ident == some "Label"))).filter
      (fun r => !(r.ident == some "Metabolite"))).filter (fun r => r.ident.isSome)

/-- The present (numeric, non-`NaN`) values of a list of cells. -/
def presentVals (vals : List (Option ℚ)) : List ℚ := vals.filterMap id

/-- Lines 71-72 / 79-80: `df[cols].mean(axis=1)` — the mean of the present
values, skipping `NaN` (pandas `skipna` default); `NaN` when no value is
present. -/
def groupMean (vals : List (Option ℚ)) : Option ℚ :=
  if presentVals vals = [] then none
  else some ((presentVals vals).sum / (presentVals vals).length)

/-- A row of either table after the fold-change stage: identifier plus the
computed `log2FC` column (`none` = `NaN`). -/
structure FCRow (α : Type) where
  id : String
  log2fc : Option α
deriving DecidableEq

/-- Lines 73 / 81: `np.log2((White_Mean + 1) / (Beige_Mean + 1))` with IEEE
division and `np.log2` semantics over the (mean + 1) values: `none` is `NaN`,
`⊤`/`⊥` are `+inf`/`-inf`.  Case by case, with `num = mean_b + 1` and
`den = mean_a + 1` (`den = 0` is IEEE `+0.0`, since exact cancellation
rounds to positive zero):
`0/0 = NaN`; `num/0 = ±inf` and `log2(+inf) = +inf`, `log2(-inf) = NaN`;
for `den ≠ 0` the quotient is finite and `log2` of it is finite when it is
positive, `-inf` when it is zero (`log2(±0.0) = -inf`), `NaN` when it is
negative.  Undefined (`NaN`) as soon as either mean is undefined. -/
noncomputable def log2fcOf (ma mb : Option ℚ) : Option EReal :=
  match ma, mb with
  | some a, some b =>
    if a + 1 = 0 then
      if 0 < b + 1 then some ⊤ else none
    else if 0 < (b + 1) / (a + 1) then
      some ((Real.logb 2 (((b : ℝ) + 1) / ((a : ℝ) + 1)) : ℝ) : EReal)
    else if b + 1 = 0 then some ⊥
    else none
  | _, _ => none

/-- One row of raw abundances: identifier, beige-group cells, white-group cells. -/
structure AbundanceRow where
  id : String
  beige : List (Option ℚ)
  white : List (Option ℚ)

/-- The whole fold-change stage for one row (means at lines 71-72, `log2FC`
at line 73; identically for lipids at lines 79-81). -/
noncomputable def rowLog2fc (r : AbundanceRow) : Option EReal :=
  log2fcOf (groupMean r.beige) (groupMean r.white)

/-- Lines 88-89: `'Upregulated_White' if x > 0 else 'Downregulated_White'`.
For `x = NaN` the Python comparison `NaN > 0` is `False`, hence the `else`
branch; `+inf > 0` is `True` and `-inf > 0` is `False`, matching the order
of the value type. -/
def direction {α : Type} [Zero α] [LinearOrder α] (x : Option α) : String :=
  match x with
  | some v => if 0 < v then "Upregulated_White" else "Downregulated_White"
  | none => "Downregulated_White"

/-- Lines 85-86: `df[abs(df[fc_col]) > threshold]`.  `abs(NaN) > t` is `False`
in pandas, so `NaN` rows never pass. -/
def sigFilter {α : Type} [LinearOrderedField α] (t : α) (rows : List (FCRow α)) :
    List (FCRow α) :=
  rows.filter (fun r =>
    match r.log2fc with
    | some v => decide (t < |v|)
    | none => false)

/-- Line 93 filter: rows whose `Direction` column equals `'Upregulated_White'`. -/
def upRows {α : Type} [LinearOrderedField α] (sig : List (FCRow α)) : List (FCRow α) :=
  sig.filter (fun r => direction r.log2fc == "Upregulated_White")

/-- Line 94 filter: rows whose `Direction` column equals `'Downregulated_White'`. -/
def downRows {α : Type} [LinearOrderedField α] (sig : List (FCRow α)) : List (FCRow α) :=
  sig.filter (fun r => direction r.log2fc == "Downregulated_White")

/-- The rows paired with the sort key (their `log2FC` value) and their original
position.  `nlargest`/`nsmallest` ignore `NaN` rows, hence the `filterMap`. -/
def keyed {α : Type} (rows : List (FCRow α)) : List (α × ℕ × FCRow α) :=
  rows.enum.filterMap (fun p => p.2.log2fc.map (fun v => (v, p.1, p.2)))

/-- Comes-before-or-equal for `nlargest(..., keep='first')`: larger key first,
ties by original position.  (pandas documents `nlargest` as equivalent to a
stable descending sort followed by `head(n)`.) -/
def descLe {α : Type} [LinearOrderedField α] (x y : α × ℕ × FCRow α) : Bool :=
  decide (y.1 < x.1 ∨ (x.1 = y.1 ∧ x.2.1 ≤ y.2.1))

/-- Comes-before-or-equal for `nsmallest(..., keep='first')`: smaller key
first, ties by original position. -/
def ascLe {α : Type} [LinearOrderedField α] (x y : α × ℕ × FCRow α) : Bool :=
  decide (x.1 < y.1 ∨ (x.1 = y.1 ∧ x.2.1 ≤ y.2.1))

/-- Line 93: `df.nlargest(n, col)` (default `keep='first'`). -/
def nlargest {α : Type} [LinearOrderedField α] (n : ℕ) (rows : List (FCRow α)) :
    List (FCRow α) :=
  (((keyed rows).mergeSort descLe).take n).map (fun p => p.2.2)

/-- Line 94: `df.nsmallest(n, col)` (default `keep='first'`). -/
def nsmallest {α : Type} [LinearOrderedField α] (n : ℕ) (rows : List (FCRow α)) :
    List (FCRow α) :=
  (((keyed rows).mergeSort ascLe).take n).map (fun p => p.2.2)

/-- Lines 92-95: `genes_per_direction = N // 2`, `nlargest` on the up rows,
`nsmallest` on the down rows, concatenated. -/
def topSplit {α : Type} [LinearOrderedField α] (N : ℕ) (sig : List (FCRow α)) :
    List (FCRow α) :=
  nlargest (N / 2) (upRows sig) ++ nsmallest (N / 2) (downRows sig)

/-- `y` is ranked strictly ahead of `x` by `nlargest(keep='first')`: strictly
larger `log2FC`, or equal `log2FC` and earlier original position. -/
def beatsUp {α : Type} [LinearOrderedField α] (y x : α × ℕ × FCRow α) : Prop :=
  x.1 < y.1 ∨ (x.1 = y.1 ∧ y.2.1 < x.2.1)

/-- `y` is ranked strictly ahead of `x` by `nsmallest(keep='first')`: strictly
smaller `log2FC`, or equal `log2FC` and earlier original position. -/
def beatsDown {α : Type} [LinearOrderedField α] (y x : α × ℕ × FCRow α) : Prop :=
  y.1 < x.1 ∨ (x.1 = y.1 ∧ y.2.1 < x.2.1)

instance beatsUpDecidable {α : Type} [LinearOrderedField α] (y x : α × ℕ × FCRow α) :
    Decidable (beatsUp y x) := by
  unfold beatsUp; infer_instance

instance beatsDownDecidable {α : Type} [LinearOrderedField α] (y x : α × ℕ × FCRow α) :
    Decidable (beatsDown y x) := by
  unfold beatsDown; infer_instance

/-- Line 82: `df[id_col].str.split(' ').str[0]` — the maximal leading run of
non-space characters (the first token of a Python `split(' ')`). -/
def lipidClass (s : String) : String :=
  String.mk (s.toList.takeWhile (fun c => !(c == ' ')))

/-- A flow edge: source label, target label, weight. -/
structure Edge (α : Type) where
  src : String
  tgt : String
  w : α
deriving DecidableEq

/-- Lines 99-100: one edge per significant lipid row, from its class to its
direction, weight 1. -/
def lipidFlows {α : Type} [LinearOrderedField α] (sigL : List (FCRow α)) :
    List (Edge α) :=
  sigL.map (fun r => ⟨lipidClass r.id, direction r.log2fc, 1⟩)

/-- Line 103 weight `abs(row['Gene_log2FC'])`.  (Only applied to selected
rows, whose `log2FC` is never `NaN`; the `none` branch is unreachable there.) -/
def geneWeight {α : Type} [LinearOrderedField α] (x : Option α) : α :=
  match x with
  | some v => |v|
  | none => 0

/-- Lines 102-103: one edge per selected gene row, from its direction to its
identifier, weight `|log2FC|`. -/
def geneFlows {α : Type} [LinearOrderedField α] (top : List (FCRow α)) :
    List (Edge α) :=
  top.map (fun r => ⟨direction r.log2fc, r.id, geneWeight r.log2fc⟩)

/-- Lines 98-105: the emitted edge list, lipid edges first then gene edges. -/
def allFlows {α : Type} [LinearOrderedField α] (sigL top : List (FCRow α)) :
    List (Edge α) :=
  lipidFlows sigL ++ geneFlows top

/-- The grouping key of an edge. -/
def edgeKey {α : Type} (e : Edge α) : String × String := (e.src, e.tgt)

/-- First-appearance deduplication (pandas `Series.unique`): keep each value's
first occurrence, in order. -/
def firstUniques {β : Type} [DecidableEq β] : List β → List β
  | [] => []
  | a :: t => a :: firstUniques (t.filter (fun b => !(b == a)))
termination_by l => l.length
decreasing_by
  simp only [List.length_cons]
  exact Nat.lt_succ_of_le (List.length_filter_le _ _)

/-- Lexicographic order on group keys, as pandas `groupby(sort=True)` sorts
its keys (first column, then second). -/
def keyLe (k₁ k₂ : String × String) : Bool :=
  decide (k₁.1 < k₂.1 ∨ (k₁.1 = k₂.1 ∧ k₁.2 ≤ k₂.2))

/-- Summed weight of all emitted edges sharing a key. -/
def aggWeight {α : Type} [LinearOrderedField α] (edges : List (Edge α))
    (k : String × String) : α :=
  ((edges.filter (fun e => edgeKey e == k)).map Edge.w).sum

/-- The distinct keys of line 106's `groupby(['source', 'target'])`, in the
sorted order pandas emits them (`sort=True` default). -/
def aggKeys {α : Type} (edges : List (Edge α)) : List (String × String) :=
  (firstUniques (edges.map edgeKey)).mergeSort keyLe

/-- Line 106: `flows_df.groupby(['source', 'target'])['value'].sum().reset_index()`:
one row per distinct key, weights summed, keys sorted. -/
def flowsAgg {α : Type} [LinearOrderedField α] (edges : List (Edge α)) : List (Edge α) :=
  (aggKeys edges).map (fun k => ⟨k.1, k.2, aggWeight edges k⟩)

/-- Line 109: `pd.concat([flows_agg['source'], flows_agg['target']]).unique()` —
all source labels in order, then all target labels in order, first occurrence
of each distinct label kept. -/
def allNodes {α : Type} (edges : List (Edge α)) : List String :=
  firstUniques (edges.map Edge.src ++ edges.map Edge.tgt)

/-- Line 110: `{node: idx for idx, node in enumerate(all_nodes)}` — `allNodes`
is duplicate-free, so the dictionary maps each label to its (first) position. -/
def nodeIndex {α : Type} (edges : List (Edge α)) (s : String) : ℕ :=
  List.indexOf s (allNodes edges)

/-- Lines 112-113 / 141-143: the index-referenced aggregated edge list handed
to the renderer. -/
def indexedLinks {α : Type} [LinearOrderedField α] (edges : List (Edge α)) :
    List (ℕ × ℕ × α) :=
  edges.map (fun e => (nodeIndex edges e.src, nodeIndex edges e.tgt, e.w))

/-- Modelled from the claim's words (not from the source): each distinct label
indexed in order of first appearance scanning the aggregated edges edge by
edge, each edge's source label before its target label. -/
def claimNodeOrder {α : Type} (edges : List (Edge α)) : List String :=
  firstUniques (edges.flatMap (fun e => [e.src, e.tgt]))

/-- Modelled from the claim's words: the edge list referencing `claimNodeOrder`
positions. -/
def claimIndexedLinks {α : Type} [LinearOrderedField α] (edges : List (Edge α)) :
    List (ℕ × ℕ × α) :=
  edges.map (fun e =>
    (List.indexOf e.src (claimNodeOrder edges), List.indexOf e.tgt (claimNodeOrder edges), e.w))

/-- A columnar frame: ordered named columns of cells (enough structure to
record which columns a frame has, in order). -/
inductive Cell (α : Type) where
  | str (s : String)
  | num (x : α)
  | pos (n : ℕ)
deriving DecidableEq

/-- The frame itself: the ordered list of (column name, column cells). -/
structure Frame (α : Type) where
  cols : List (String × List (Cell α))
deriving DecidableEq

/-- The frame's column names in order (what `to_csv` writes as the header). -/
def Frame.columns {α : Type} (f : Frame α) : List String := f.cols.map Prod.fst

/-- `df[name] = vals`: replace the column if present, otherwise append it at
the end (pandas semantics for assigning a new column). -/
def Frame.setCol {α : Type} (f : Frame α) (name : String) (vals : List (Cell α)) :
    Frame α :=
  if f.cols.any (fun c => c.1 == name) then
    ⟨f.cols.map (fun c => if c.1 == name then (name, vals) else c)⟩
  else ⟨f.cols ++ [(name, vals)]⟩

/-- Line 106's result as a frame: `reset_index()` yields exactly the columns
`source`, `target`, `value`, in that order. -/
def flowsAggFrame {α : Type} [LinearOrderedField α] (edges : List (Edge α)) : Frame α :=
  ⟨[("source", (flowsAgg edges).map (fun e => Cell.str e.src)),
    ("target", (flowsAgg edges).map (fun e => Cell.str e.tgt)),
    ("value", (flowsAgg edges).map (fun e => Cell.num e.w))]⟩

/-- Lines 112-113 then 201: `flows_agg['source_idx'] = ...` and
`flows_agg['target_idx'] = ...` mutate the frame before
`flows_agg.to_csv(..., index=False)` exports it. -/
def exportedFlowsFrame {α : Type} [LinearOrderedField α] (edges : List (Edge α)) :
    Frame α :=
  ((flowsAggFrame edges).setCol "source_idx"
      ((flowsAgg edges).map (fun e => Cell.pos (nodeIndex (flowsAgg edges) e.src)))).setCol
    "target_idx"
    ((flowsAgg edges).map (fun e => Cell.pos (nodeIndex (flowsAgg edges) e.tgt)))

/-- Lines 161-162 / 165-166: how many rows of a frame have strictly positive
`log2FC`.  (`NaN > 0` is `False`.) -/
def posCount {α : Type} [LinearOrderedField α] (rows : List (FCRow α)) : ℕ :=
  (rows.filter (fun r =>
    match r.log2fc with
    | some v => decide (0 < v)
    | none => false)).length

/-- Strictly negative counterpart (`NaN < 0` is `False`). -/
def negCount {α : Type} [LinearOrderedField α] (rows : List (FCRow α)) : ℕ :=
  (rows.filter (fun r =>
    match r.log2fc with
    | some v => decide (v < 0)
    | none => false)).length

/-- Lines 158-167: the summary dictionary. -/
structure Summary where
  Total_Genes : ℕ
  Significant_Genes : ℕ
  Genes_Up_White : ℕ
  Genes_Down_White : ℕ
  Total_Lipids : ℕ
  Significant_Lipids : ℕ
  Lipids_Up_White : ℕ
  Lipids_Down_White : ℕ
deriving DecidableEq

/-- Lines 158-167 assembled: counts over the full tables and the significant
subsets. -/
def summary {α : Type} [LinearOrderedField α] (genes lipids : List (FCRow α))
    (tg tl : α) : Summary :=
  { Total_Genes := genes.length
    Significant_Genes := (sigFilter tg genes).length
    Genes_Up_White := posCount (sigFilter tg genes)
    Genes_Down_White := negCount (sigFilter tg genes)
    Total_Lipids := lipids.length
    Significant_Lipids := (sigFilter tl lipids).length
    Lipids_Up_White := posCount (sigFilter tl lipids)
    Lipids_Down_White := negCount (sigFilter tl lipids) }

/-! ## Helper lemmas -/

/-- Membership in the magnitude filter, unfolded. -/
theorem mem_sigFilter_iff {α : Type} [LinearOrderedField α] {t : α}
    {rows : List (FCRow α)} {r : FCRow α} :
    r ∈ sigFilter t rows ↔ r ∈ rows ∧ ∃ v, r.log2fc = some v ∧ t < |v| := by
  rw [sigFilter, List.mem_filter]
  constructor
  · rintro ⟨hmem, hcond⟩
    refine ⟨hmem, ?_⟩
    cases hl : r.log2fc with
    | none => rw [hl] at hcond; simp at hcond
    | some v =>
      rw [hl] at hcond
      exact ⟨v, rfl, by simpa using hcond⟩
  · rintro ⟨hmem, v, hv, hgt⟩
    refine ⟨hmem, ?_⟩
    rw [hv]
    simpa using hgt

/-- Rows whose `log2FC` is strictly nonzero are partitioned by the strict
positive / strict negative counts. -/
theorem pos_neg_partition {α : Type} [LinearOrderedField α] (l : List (FCRow α))
    (h : ∀ r ∈ l, ∃ v, r.log2fc = some v ∧ v ≠ 0) :
    posCount l + negCount l = l.length := by
  induction l with
  | nil => rfl
  | cons a t ih =>
    obtain ⟨v, hv, hv0⟩ := h a (by simp)
    have ht := ih (fun r hr => h r (by simp [hr]))
    rcases hv0.lt_or_lt with hlt | hgt
    · have h1 : posCount (a :: t) = posCount t := by
        simp [posCount, List.filter_cons, hv, not_lt_of_gt hlt]
      have h2 : negCount (a :: t) = negCount t + 1 := by
        simp [negCount, List.filter_cons, hv, hlt]
      rw [h1, h2, List.length_cons]
      omega
    · have h1 : posCount (a :: t) = posCount t + 1 := by
        simp [posCount, List.filter_cons, hv, hgt]
      have h2 : negCount (a :: t) = negCount t := by
        simp [negCount, List.filter_cons, hv, not_lt_of_gt hgt]
      rw [h1, h2, List.length_cons]
      omega

/-- A direction label is always one of the two fixed tags. -/
theorem direction_cases {α : Type} [LinearOrderedField α] (x : Option α) :
    direction x = "Upregulated_White" ∨ direction x = "Downregulated_White" := by
  cases x with
  | none => exact Or.inr rfl
  | some v =>
    by_cases hv : 0 < v
    · exact Or.inl (by simp [direction, hv])
    · exact Or.inr (by simp [direction, hv])

/-- `firstUniques` keeps exactly the values of the input. -/
theorem mem_firstUniques {β : Type} [DecidableEq β] (l : List β) (x : β) :
    x ∈ firstUniques l ↔ x ∈ l := by
  induction l using firstUniques.induct with
  | case1 => simp [firstUniques]
  | case2 a t ih =>
    rw [firstUniques, List.mem_cons, ih, List.mem_filter, List.mem_cons]
    by_cases hx : x = a
    · simp [hx]
    · simp [hx]

/-- `firstUniques` never repeats a value. -/
theorem nodup_firstUniques {β : Type} [DecidableEq β] (l : List β) :
    (firstUniques l).Nodup := by
  induction l using firstUniques.induct with
  | case1 => simp [firstUniques]
  | case2 a t ih =>
    rw [firstUniques]
    refine List.nodup_cons.mpr ⟨?_, ih⟩
    intro hmem
    rw [mem_firstUniques] at hmem
    have := List.of_mem_filter hmem
    simp at this

theorem keyLe_trans (a b c : String × String) :
    keyLe a b = true → keyLe b c = true → keyLe a c = true := by
  simp only [keyLe, decide_eq_true_eq]
  rintro (h1 | ⟨h1, h1'⟩) (h2 | ⟨h2, h2'⟩)
  · exact Or.inl (lt_trans h1 h2)
  · exact Or.inl (h2 ▸ h1)
  · exact Or.inl (h1 ▸ h2)
  · exact Or.inr ⟨h1.trans h2, le_trans h1' h2'⟩

theorem keyLe_total (a b : String × String) : (keyLe a b || keyLe b a) = true := by
  simp only [keyLe, Bool.or_eq_true, decide_eq_true_eq]
  rcases lt_trichotomy a.1 b.1 with h | h | h
  · exact Or.inl (Or.inl h)
  · rcases le_total a.2 b.2 with h2 | h2
    · exact Or.inl (Or.inr ⟨h, h2⟩)
    · exact Or.inr (Or.inr ⟨h.symm, h2⟩)
  · exact Or.inr (Or.inl h)

theorem keyLe_antisymm (a b : String × String) :
    keyLe a b = true → keyLe b a = true → a = b := by
  simp only [keyLe, decide_eq_true_eq]
  rintro (h1 | ⟨h1, h1'⟩) (h2 | ⟨h2, h2'⟩)
  · exact absurd h2 (asymm h1)
  · exact absurd h1 (h2 ▸ lt_irrefl _)
  · exact absurd h2 (h1 ▸ lt_irrefl _)
  · exact Prod.ext h1 (le_antisymm h1' h2')

/-- Splitting a mapped sum along a Boolean filter. -/
theorem sum_map_filter_split {α : Type} [LinearOrderedField α] {β : Type}
    (p : β → Bool) (f : β → α) (l : List β) :
    ((l.filter p).map f).sum + ((l.filter (fun a => !(p a))).map f).sum
      = (l.map f).sum := by
  induction l with
  | nil => simp
  | cons a t ih =>
    by_cases h : p a
    · have h1 : List.filter p (a :: t) = a :: List.filter p t := by
        simp [List.filter_cons, h]
      have h2 : List.filter (fun x => !(p x)) (a :: t) = List.filter (fun x => !(p x)) t := by
        simp [List.filter_cons, h]
      rw [h1, h2, List.map_cons, List.sum_cons, List.map_cons, List.sum_cons, add_assoc, ih]
    · have h1 : List.filter p (a :: t) = List.filter p t := by
        simp [List.filter_cons, h]
      have h2 : List.filter (fun x => !(p x)) (a :: t)
          = a :: List.filter (fun x => !(p x)) t := by
        simp [List.filter_cons, h]
      rw [h1, h2, List.map_cons, List.sum_cons, List.map_cons, List.sum_cons, ← ih]
      ring

/-- Summing per-key aggregated weights over any duplicate-free covering key
list gives the total emitted weight. -/
theorem sum_filter_key {α : Type} [LinearOrderedField α] :
    ∀ (keys : List (String × String)) (edges : List (Edge α)),
      keys.Nodup → (∀ e ∈ edges, edgeKey e ∈ keys) →
      (keys.map (fun k => aggWeight edges k)).sum = (edges.map Edge.w).sum := by
  intro keys
  induction keys with
  | nil =>
    intro edges _ hcov
    cases edges with
    | nil => rfl
    | cons e t => exact absurd (hcov e (by simp)) (by simp)
  | cons k ks ih =>
    intro edges hnd hcov
    have hk : k ∉ ks := (List.nodup_cons.mp hnd).1
    have hks : ks.Nodup := (List.nodup_cons.mp hnd).2
    set e₂ := edges.filter (fun e => !(edgeKey e == k)) with he₂
    have hcov₂ : ∀ e ∈ e₂, edgeKey e ∈ ks := by
      intro e he
      have hmem := List.mem_of_mem_filter he
      have hne := List.of_mem_filter he
      simp only [Bool.not_eq_true', beq_eq_false_iff_ne, ne_eq] at hne
      have := hcov e hmem
      rw [List.mem_cons] at this
      exact this.resolve_left hne
    have hsame : ∀ k' ∈ ks, aggWeight edges k' = aggWeight e₂ k' := by
      intro k' hk'
      have hkk : k' ≠ k := fun h => hk (h ▸ hk')
      have hf : edges.filter (fun e => (edgeKey e == k') && !(edgeKey e == k))
          = edges.filter (fun e => edgeKey e == k') := by
        apply List.filter_congr
        intro e _
        by_cases h : edgeKey e = k'
        · simp [h, hkk]
        · simp [h]
      rw [aggWeight, aggWeight, he₂, List.filter_filter, hf]
    have hmap : ks.map (fun k' => aggWeight edges k')
        = ks.map (fun k' => aggWeight e₂ k') := List.map_congr_left hsame
    rw [List.map_cons, List.sum_cons, hmap, ih e₂ hks hcov₂]
    rw [aggWeight, he₂]
    exact sum_map_filter_split (fun e => edgeKey e == k) Edge.w edges

/-- The aggregated key list contains exactly the emitted edges' keys. -/
theorem mem_aggKeys {α : Type} (edges : List (Edge α)) (k : String × String) :
    k ∈ aggKeys edges ↔ k ∈ edges.map edgeKey := by
  rw [aggKeys, (List.mergeSort_perm _ keyLe).mem_iff]
  exact mem_firstUniques _ _

theorem nodup_aggKeys {α : Type} (edges : List (Edge α)) : (aggKeys edges).Nodup :=
  (List.mergeSort_perm _ keyLe).nodup_iff.mpr (nodup_firstUniques _)

theorem sorted_aggKeys {α : Type} (edges : List (Edge α)) :
    (aggKeys edges).Pairwise (fun a b => keyLe a b = true) :=
  List.sorted_mergeSort keyLe_trans keyLe_total _

theorem flowsAgg_map_key {α : Type} [LinearOrderedField α] (edges : List (Edge α)) :
    (flowsAgg edges).map edgeKey = aggKeys edges := by
  rw [flowsAgg, List.map_map]
  have hid : (edgeKey ∘ fun k : String × String =>
      (⟨k.1, k.2, aggWeight edges k⟩ : Edge α)) = id := by
    funext k
    rfl
  rw [hid, List.map_id]

theorem aggWeight_perm {α : Type} [LinearOrderedField α] {edges edges' : List (Edge α)}
    (hp : edges.Perm edges') (k : String × String) :
    aggWeight edges k = aggWeight edges' k :=
  ((hp.filter _).map Edge.w).sum_eq

theorem aggKeys_perm {α : Type} {edges edges' : List (Edge α)}
    (hp : edges.Perm edges') : aggKeys edges = aggKeys edges' := by
  haveI : IsAntisymm (String × String) (fun a b => keyLe a b = true) :=
    ⟨keyLe_antisymm⟩
  have hperm : (aggKeys edges).Perm (aggKeys edges') := by
    rw [List.perm_ext_iff_of_nodup (nodup_aggKeys _) (nodup_aggKeys _)]
    intro k
    rw [mem_aggKeys, mem_aggKeys]
    exact (hp.map edgeKey).mem_iff
  exact List.eq_of_perm_of_sorted hperm (sorted_aggKeys _) (sorted_aggKeys _)

/-! ## Claim theorems -/

/-- C9: the cleaned transcriptome table contains no row whose identifier is
null or equals the header-artifact value `'Class'`; the cleaned lipid table
contains no row whose identifier is null or equals `'Label'` or
`'Metabolite'` (case-sensitive exact matches). -/
theorem cleaned_rows_never_artifact_or_null {ρ : Type} (gRows lRows : List (RawRow ρ)) :
    (∀ r ∈ cleanTranscriptome gRows, r.ident ≠ none ∧ r.ident ≠ some "Class")
    ∧ (∀ r ∈ cleanLipids lRows,
        r.ident ≠ none ∧ r.ident ≠ some "Label" ∧ r.ident ≠ some "Metabolite") := by
  constructor
  · intro r hr
    rw [cleanTranscriptome, List.mem_filter, List.mem_filter] at hr
    obtain ⟨⟨_, hcls⟩, hsome⟩ := hr
    refine ⟨?_, ?_⟩
    · intro hnone; rw [hnone] at hsome; simp at hsome
    · intro hcl; rw [hcl] at hcls; simp at hcls
  · intro r hr
    rw [cleanLipids, List.mem_filter, List.mem_filter, List.mem_filter] at hr
    obtain ⟨⟨⟨_, hlab⟩, hmet⟩, hsome⟩ := hr
    refine ⟨?_, ?_, ?_⟩
    · intro hnone; rw [hnone] at hsome; simp at hsome
    · intro hl; rw [hl] at hlab; simp at hlab
    · intro hm; rw [hm] at hmet; simp at hmet

theorem cleaned_rows_never_artifact_or_null_witness :
    (⟨some "G1", 0⟩ : RawRow ℕ).ident ≠ none ∧
    (⟨some "G1", 0⟩ : RawRow ℕ).ident ≠ some "Class" :=
  (cleaned_rows_never_artifact_or_null [⟨some "G1", 0⟩] []).1 ⟨some "G1", 0⟩ (by decide)

/-- C4: the magnitude filter keeps exactly the rows whose `|log2FC|` strictly
exceeds the threshold (undefined `log2FC` rows excluded), and raising the
threshold shrinks the output: for `t₁ ≤ t₂` the filter at `t₂` is a sublist of
the filter at `t₁`, so its length is no larger. -/
theorem magnitude_filter_exact_and_antitone {α : Type} [LinearOrderedField α]
    (rows : List (FCRow α)) (t₁ t₂ : α) (h : t₁ ≤ t₂) :
    (∀ r, r ∈ sigFilter t₁ rows ↔ r ∈ rows ∧ ∃ v, r.log2fc = some v ∧ t₁ < |v|)
    ∧ (sigFilter t₂ rows).Sublist (sigFilter t₁ rows)
    ∧ (sigFilter t₂ rows).length ≤ (sigFilter t₁ rows).length := by
  have hsub : (sigFilter t₂ rows).Sublist (sigFilter t₁ rows) := by
    apply List.monotone_filter_right
    intro r hr
    cases hl : r.log2fc with
    | none => rw [hl] at hr; simp at hr
    | some v =>
      rw [hl] at hr
      simp only [decide_eq_true_eq] at hr ⊢
      exact lt_of_le_of_lt h hr
  exact ⟨fun _ => mem_sigFilter_iff, hsub, hsub.length_le⟩

theorem magnitude_filter_exact_and_antitone_witness :
    (sigFilter (2 : ℚ) [⟨"g", some 2⟩]).length ≤ (sigFilter (1 : ℚ) [⟨"g", some 2⟩]).length :=
  (magnitude_filter_exact_and_antitone [⟨"g", some 2⟩] 1 2 (by decide)).2.2

/-- C5 (amended): a row's direction is `'Upregulated_White'` exactly when its
`log2FC` is strictly positive and `'Downregulated_White'` otherwise; a row
whose two group means are equal and different from `-1` has `log2FC` exactly
`0` and direction `'Downregulated_White'`.  (At common mean exactly `-1` the
program computes `0/0 = NaN`, so the fold-change is undefined there instead
of `0` — see the counterexample.) -/
theorem direction_strict_positive_split :
    (∀ x : ℝ, (direction (some x) = "Upregulated_White" ↔ 0 < x)
      ∧ (direction (some x) = "Downregulated_White" ↔ ¬ 0 < x))
    ∧ ∀ (r : AbundanceRow) (m : ℚ), m ≠ -1 → groupMean r.beige = some m →
      groupMean r.white = some m →
      rowLog2fc r = some 0 ∧ direction (rowLog2fc r) = "Downregulated_White" := by
  have hne : ("Upregulated_White" : String) ≠ "Downregulated_White" := by decide
  constructor
  · intro x
    by_cases hx : 0 < x
    · refine ⟨by simp [direction, hx], ?_⟩
      simp only [direction, if_pos hx]
      exact ⟨fun hc => absurd hc hne, fun hc => absurd hx hc⟩
    · refine ⟨?_, by simp [direction, hx]⟩
      simp only [direction, if_neg hx]
      exact ⟨fun hc => absurd hc.symm hne, fun hc => absurd hc hx⟩
  · intro r m hm h1 h2
    have h0 : m + 1 ≠ 0 := fun h => hm (by linarith)
    have h0' : ((m : ℝ) + 1) ≠ 0 := by exact_mod_cast h0
    have hfc : rowLog2fc r = some 0 := by
      rw [rowLog2fc, h1, h2]
      simp only [log2fcOf]
      rw [if_neg h0, if_pos (by rw [div_self h0]; norm_num), div_self h0',
        Real.logb_one]
      norm_num
    refine ⟨hfc, ?_⟩
    rw [hfc]
    simp [direction]

theorem direction_strict_positive_split_witness :
    rowLog2fc ⟨"G1", [some 2], [some 2]⟩ = some 0 ∧
    direction (rowLog2fc ⟨"G1", [some 2], [some 2]⟩) = "Downregulated_White" :=
  direction_strict_positive_split.2 ⟨"G1", [some 2], [some 2]⟩ 2 (by decide)
    (by simp [groupMean, presentVals]) (by simp [groupMean, presentVals])

/-- C5 (counterexample): at common group mean exactly `-1` the program's
`log2FC` is `log2(0/0) = NaN` (undefined), not `0`, so the unconditional
equal-means clause of the claim is false at this row. -/
theorem zero_foldchange_at_minus_one_counterexample :
    groupMean [some (-1 : ℚ)] = some (-1)
    ∧ rowLog2fc ⟨"G1", [some (-1)], [some (-1)]⟩ = none
    ∧ rowLog2fc ⟨"G1", [some (-1)], [some (-1)]⟩ ≠ some 0 := by
  have hg : groupMean [some (-1 : ℚ)] = some (-1) := by
    simp [groupMean, presentVals]
  have hfc : rowLog2fc ⟨"G1", [some (-1)], [some (-1)]⟩ = none := by
    rw [rowLog2fc, hg]
    simp only [log2fcOf]
    rw [if_pos (by norm_num), if_neg (by norm_num)]
  exact ⟨hg, hfc, by rw [hfc]; exact fun h => Option.noConfusion h⟩

/-- C10: with non-negative fold-change thresholds, the summary counts satisfy
`Genes_Up_White + Genes_Down_White = Significant_Genes` and
`Lipids_Up_White + Lipids_Down_White = Significant_Lipids`: every
significant row has strictly nonzero `log2FC`, so the strict `> 0` and `< 0`
counts partition the significant set. -/
theorem summary_up_down_partition {α : Type} [LinearOrderedField α]
    (genes lipids : List (FCRow α)) (tg tl : α) (hg : 0 ≤ tg) (hl : 0 ≤ tl) :
    (summary genes lipids tg tl).Genes_Up_White
      + (summary genes lipids tg tl).Genes_Down_White
      = (summary genes lipids tg tl).Significant_Genes
    ∧ (summary genes lipids tg tl).Lipids_Up_White
      + (summary genes lipids tg tl).Lipids_Down_White
      = (summary genes lipids tg tl).Significant_Lipids := by
  constructor
  · apply pos_neg_partition
    intro r hr
    obtain ⟨_, v, hv, hgt⟩ := mem_sigFilter_iff.mp hr
    refine ⟨v, hv, ?_⟩
    intro h0
    rw [h0] at hgt
    simp only [abs_zero] at hgt
    exact absurd (lt_of_le_of_lt hg hgt) (lt_irrefl _)
  · apply pos_neg_partition
    intro r hr
    obtain ⟨_, v, hv, hgt⟩ := mem_sigFilter_iff.mp hr
    refine ⟨v, hv, ?_⟩
    intro h0
    rw [h0] at hgt
    simp only [abs_zero] at hgt
    exact absurd (lt_of_le_of_lt hl hgt) (lt_irrefl _)

theorem summary_up_down_partition_witness :
    (summary ([⟨"g", some 2⟩] : List (FCRow ℚ)) [⟨"l", some (-1)⟩] 1 1).Genes_Up_White
      + (summary ([⟨"g", some 2⟩] : List (FCRow ℚ)) [⟨"l", some (-1)⟩] 1 1).Genes_Down_White
      = (summary ([⟨"g", some 2⟩] : List (FCRow ℚ)) [⟨"l", some (-1)⟩] 1 1).Significant_Genes :=
  (summary_up_down_partition _ _ _ _ (by decide) (by decide)).1

/-- C8: the aggregation of line 106 groups the emitted edges by
`(source, target)` key and sums their weights, and is order-independent:
permuting the emitted edge list leaves every key's aggregated weight, the
whole aggregated table, and the total weight unchanged; the aggregated keys
are exactly the emitted keys and each aggregated row carries its key's summed
weight. -/
theorem aggregation_groupby_sum_perm_invariant {α : Type} [LinearOrderedField α]
    (edges edges' : List (Edge α)) (hp : edges.Perm edges') :
    (∀ k, aggWeight edges k = aggWeight edges' k)
    ∧ flowsAgg edges = flowsAgg edges'
    ∧ (∀ e ∈ flowsAgg edges, e.w = aggWeight edges (e.src, e.tgt))
    ∧ (∀ k, k ∈ (flowsAgg edges).map edgeKey ↔ k ∈ edges.map edgeKey)
    ∧ ((flowsAgg edges).map Edge.w).sum = (edges.map Edge.w).sum := by
  refine ⟨fun k => aggWeight_perm hp k, ?_, ?_, ?_, ?_⟩
  · rw [flowsAgg, flowsAgg, aggKeys_perm hp]
    apply List.map_congr_left
    intro k _
    rw [aggWeight_perm hp]
  · intro e he
    rw [flowsAgg, List.mem_map] at he
    obtain ⟨k, _, hk⟩ := he
    rw [← hk]
  · intro k
    rw [flowsAgg_map_key, mem_aggKeys]
  · rw [flowsAgg, List.map_map]
    have hw : (Edge.w ∘ fun k : String × String =>
        (⟨k.1, k.2, aggWeight edges k⟩ : Edge α)) = fun k => aggWeight edges k := rfl
    rw [hw]
    exact sum_filter_key (aggKeys edges) edges (nodup_aggKeys _)
      (fun e he => (mem_aggKeys _ _).mpr (List.mem_map_of_mem _ he))

theorem aggregation_groupby_sum_perm_invariant_witness :
    flowsAgg ([⟨"A", "B", 1⟩, ⟨"A", "B", 2⟩] : List (Edge ℚ))
      = flowsAgg ([⟨"A", "B", 2⟩, ⟨"A", "B", 1⟩] : List (Edge ℚ)) :=
  (aggregation_groupby_sum_perm_invariant _ _
    (List.Perm.swap ⟨"A", "B", 2⟩ ⟨"A", "B", 1⟩ [])).2.1

/-- C7 (amended): provided no selected lipid's class label and no selected
gene's identifier equals one of the two direction tags, no emitted or
aggregated edge has its source label equal to its target label.  (The
unconditional claim fails: a lipid identifier whose first token is itself a
direction tag yields a self-edge, see the counterexample.) -/
theorem no_self_edges_of_labels_distinct {α : Type} [LinearOrderedField α]
    (sigL top : List (FCRow α))
    (hL : ∀ r ∈ sigL, lipidClass r.id ≠ "Upregulated_White"
      ∧ lipidClass r.id ≠ "Downregulated_White")
    (hG : ∀ r ∈ top, r.id ≠ "Upregulated_White" ∧ r.id ≠ "Downregulated_White") :
    (∀ e ∈ allFlows sigL top, e.src ≠ e.tgt)
    ∧ (∀ e ∈ flowsAgg (allFlows sigL top), e.src ≠ e.tgt) := by
  have hflows : ∀ e ∈ allFlows sigL top, e.src ≠ e.tgt := by
    intro e he
    rw [allFlows, List.mem_append] at he
    rcases he with hl | hg
    · rw [lipidFlows, List.mem_map] at hl
      obtain ⟨r, hr, hre⟩ := hl
      subst hre
      intro hst
      rcases direction_cases (α := α) r.log2fc with hd | hd
      · exact (hL r hr).1 (hst.trans hd)
      · exact (hL r hr).2 (hst.trans hd)
    · rw [geneFlows, List.mem_map] at hg
      obtain ⟨r, hr, hre⟩ := hg
      subst hre
      intro hst
      rcases direction_cases (α := α) r.log2fc with hd | hd
      · exact (hG r hr).1 (hst.symm.trans hd)
      · exact (hG r hr).2 (hst.symm.trans hd)
  refine ⟨hflows, ?_⟩
  intro e he
  rw [flowsAgg, List.mem_map] at he
  obtain ⟨k, hk, hke⟩ := he
  rw [mem_aggKeys, List.mem_map] at hk
  obtain ⟨e₀, he₀, hk₀⟩ := hk
  subst hke
  rw [← hk₀]
  exact hflows e₀ he₀

theorem no_self_edges_of_labels_distinct_witness :
    (⟨lipidClass "PC 16:0", direction (some (2 : ℚ)), 1⟩ : Edge ℚ).src
      ≠ (⟨lipidClass "PC 16:0", direction (some (2 : ℚ)), 1⟩ : Edge ℚ).tgt :=
  (no_self_edges_of_labels_distinct [⟨"PC 16:0", some 2⟩] [⟨"G1", some 2⟩]
      (by decide) (by decide)).1
    ⟨lipidClass "PC 16:0", direction (some (2 : ℚ)), 1⟩ (by decide)

/-- C7 (counterexample): a significant lipid whose identifier's first token is
itself a direction tag produces an edge whose source equals its target, so
the unconditional claim is false. -/
theorem self_edge_counterexample :
    ∃ e ∈ allFlows (sigFilter (1 : ℚ) [⟨"Upregulated_White 16:0", some 2⟩]) [],
      e.src = e.tgt := by decide

/-- C2 (amended): since lines 112-113 append the `source_idx` and `target_idx`
columns to `flows_agg` before line 201 exports it, the exported table has
exactly the columns `source, target, value, source_idx, target_idx`, in that
order. -/
theorem flows_export_columns_include_indices {α : Type} [LinearOrderedField α]
    (edges : List (Edge α)) :
    (exportedFlowsFrame edges).columns
      = ["source", "target", "value", "source_idx", "target_idx"] := rfl

/-- C2 (counterexample): the exported aggregated edge table does not have
exactly the columns `source, target, value`. -/
theorem flows_export_columns_counterexample :
    (exportedFlowsFrame ([⟨"A", "B", 1⟩] : List (Edge ℚ))).columns
      ≠ ["source", "target", "value"] := by decide

theorem log2fcOf_none_left (mb : Option ℚ) : log2fcOf none mb = none := by
  cases mb <;> rfl

theorem log2fcOf_none_right (ma : Option ℚ) : log2fcOf ma none = none := by
  cases ma <;> rfl

/-- Every element of the keyed list carries its row's defined `log2FC`. -/
theorem keyed_log2fc {α : Type} (rows : List (FCRow α)) (p : α × ℕ × FCRow α)
    (hp : p ∈ keyed rows) : p.2.2.log2fc = some p.1 := by
  rw [keyed, List.mem_filterMap] at hp
  obtain ⟨q, hq, hqe⟩ := hp
  cases hl : q.2.log2fc with
  | none => rw [hl] at hqe; exact absurd hqe (by simp)
  | some v =>
    rw [hl] at hqe
    simp only [Option.map_some'] at hqe
    injection hqe with h
    rw [← h]
    exact hl

/-- Rows selected by a sort-and-take over the keyed list come from the keyed
list (hence have a defined `log2FC`). -/
theorem mem_sortTake_keyed {α : Type} (le : (α × ℕ × FCRow α) → (α × ℕ × FCRow α) → Bool)
    {n : ℕ} {rows : List (FCRow α)} {s : FCRow α}
    (hs : s ∈ ((((keyed rows).mergeSort le).take n).map (fun p => p.2.2))) :
    ∃ p ∈ keyed rows, p.2.2 = s ∧ s.log2fc = some p.1 := by
  rw [List.mem_map] at hs
  obtain ⟨p, hp, hps⟩ := hs
  have hpk : p ∈ keyed rows :=
    ((List.mergeSort_perm _ _).mem_iff).mp (List.mem_of_mem_take hp)
  exact ⟨p, hpk, hps, hps ▸ keyed_log2fc rows p hpk⟩

/-- C6: a row with zero present (numeric) values in one of its groups has an
undefined mean and an undefined `log2FC`, and rows with undefined `log2FC`
never appear in the significance filter's output nor in any
`nlargest`/`nsmallest` selection downstream — they are never treated as
having a zero or otherwise valid signed fold-change. -/
theorem undefined_foldchange_excluded (r : AbundanceRow)
    (hz : presentVals r.beige = [] ∨ presentVals r.white = []) :
    (presentVals r.beige = [] → groupMean r.beige = none)
    ∧ (presentVals r.white = [] → groupMean r.white = none)
    ∧ rowLog2fc r = none
    ∧ (∀ (t : ℝ) (rows : List (FCRow ℝ)), ∀ s ∈ sigFilter t rows, s.log2fc ≠ none)
    ∧ (∀ (n : ℕ) (rows : List (FCRow ℝ)), ∀ s ∈ nlargest n rows, s.log2fc ≠ none)
    ∧ (∀ (n : ℕ) (rows : List (FCRow ℝ)), ∀ s ∈ nsmallest n rows, s.log2fc ≠ none) := by
  have hmean : ∀ vals : List (Option ℚ), presentVals vals = [] → groupMean vals = none := by
    intro vals h
    rw [groupMean, if_pos h]
  refine ⟨hmean r.beige, hmean r.white, ?_, ?_, ?_, ?_⟩
  · rcases hz with h | h
    · rw [rowLog2fc, hmean r.beige h, log2fcOf_none_left]
    · rw [rowLog2fc, hmean r.white h, log2fcOf_none_right]
  · intro t rows s hs
    obtain ⟨_, v, hv, _⟩ := mem_sigFilter_iff.mp hs
    rw [hv]
    exact Option.some_ne_none v
  · intro n rows s hs
    rw [nlargest] at hs
    obtain ⟨p, _, _, hsome⟩ := mem_sortTake_keyed descLe hs
    rw [hsome]
    exact Option.some_ne_none _
  · intro n rows s hs
    rw [nsmallest] at hs
    obtain ⟨p, _, _, hsome⟩ := mem_sortTake_keyed ascLe hs
    rw [hsome]
    exact Option.some_ne_none _

theorem undefined_foldchange_excluded_witness :
    rowLog2fc ⟨"G1", [none], [some 1]⟩ = none :=
  (undefined_foldchange_excluded ⟨"G1", [none], [some 1]⟩ (Or.inl (by decide))).2.2.1

/-- Filtering preserves the relative order of first occurrences of values the
filter keeps. -/
theorem indexOf_filter_lt_iff {β : Type} [DecidableEq β] (p : β → Bool) (t : List β)
    (a b : β) (ha : p a = true) (hb : p b = true) :
    List.indexOf a (t.filter p) < List.indexOf b (t.filter p)
      ↔ List.indexOf a t < List.indexOf b t := by
  induction t with
  | nil => simp
  | cons c t ih =>
    by_cases hpc : p c
    · by_cases hca : c = a
      · by_cases hcb : c = b
        · rw [← hca, ← hcb, List.filter_cons_of_pos hpc]
          simp
        · rw [← hca, List.filter_cons_of_pos hpc, List.indexOf_cons_self,
            List.indexOf_cons_self, List.indexOf_cons_ne _ hcb,
            List.indexOf_cons_ne _ hcb]
          simp
      · by_cases hcb : c = b
        · rw [← hcb, List.filter_cons_of_pos hpc, List.indexOf_cons_ne _ hca,
            List.indexOf_cons_ne _ hca, List.indexOf_cons_self,
            List.indexOf_cons_self]
          simp
        · rw [List.filter_cons_of_pos hpc, List.indexOf_cons_ne _ hca,
            List.indexOf_cons_ne _ hca, List.indexOf_cons_ne _ hcb,
            List.indexOf_cons_ne _ hcb, Nat.succ_lt_succ_iff, Nat.succ_lt_succ_iff]
          exact ih
    · have hca : c ≠ a := fun hh => hpc (hh ▸ ha)
      have hcb : c ≠ b := fun hh => hpc (hh ▸ hb)
      rw [List.filter_cons_of_neg hpc, List.indexOf_cons_ne _ hca,
        List.indexOf_cons_ne _ hcb, Nat.succ_lt_succ_iff]
      exact ih

/-- `firstUniques` assigns positions in order of first appearance: the strict
order of positions in `firstUniques l` agrees with the strict order of first
occurrences in `l`. -/
theorem firstUniques_indexOf_lt_iff {β : Type} [DecidableEq β] (l : List β) (a b : β) :
    List.indexOf a (firstUniques l) < List.indexOf b (firstUniques l)
      ↔ List.indexOf a l < List.indexOf b l := by
  induction l using firstUniques.induct with
  | case1 => simp [firstUniques]
  | case2 c t ih =>
    rw [firstUniques]
    by_cases hca : c = a
    · by_cases hcb : c = b
      · rw [← hca, ← hcb]
        simp
      · rw [← hca, List.indexOf_cons_self, List.indexOf_cons_self,
          List.indexOf_cons_ne _ hcb, List.indexOf_cons_ne _ hcb]
        simp
    · by_cases hcb : c = b
      · rw [← hcb, List.indexOf_cons_ne _ hca, List.indexOf_cons_ne _ hca,
          List.indexOf_cons_self, List.indexOf_cons_self]
        simp
      · have hac : a ≠ c := fun hh => hca hh.symm
        have hbc : b ≠ c := fun hh => hcb hh.symm
        rw [List.indexOf_cons_ne _ hca, List.indexOf_cons_ne _ hca,
          List.indexOf_cons_ne _ hcb, List.indexOf_cons_ne _ hcb,
          Nat.succ_lt_succ_iff, Nat.succ_lt_succ_iff, ih]
        exact indexOf_filter_lt_iff _ t a b (by simp [hac]) (by simp [hbc])

/-- C1 (amended): the node list is duplicate-free, contains exactly the labels
of the aggregated edges, and assigns zero-based indices in order of first
appearance when scanning all aggregated source labels in order followed by
all aggregated target labels in order (the column-wise scan of line 109, not
the edge-interleaved scan) — and the emitted `(source_index, target_index,
weight)` list references exactly these indices. -/
theorem node_index_first_appearance_columnwise {α : Type} [LinearOrderedField α]
    (edges : List (Edge α)) :
    (allNodes edges).Nodup
    ∧ (∀ s, s ∈ allNodes edges ↔ s ∈ edges.map Edge.src ++ edges.map Edge.tgt)
    ∧ (∀ a b, nodeIndex edges a < nodeIndex edges b
        ↔ List.indexOf a (edges.map Edge.src ++ edges.map Edge.tgt)
            < List.indexOf b (edges.map Edge.src ++ edges.map Edge.tgt))
    ∧ indexedLinks edges
        = edges.map (fun e => (nodeIndex edges e.src, nodeIndex edges e.tgt, e.w)) :=
  ⟨nodup_firstUniques _, fun s => mem_firstUniques _ s,
    fun a b => firstUniques_indexOf_lt_iff _ a b, rfl⟩

/-- C1 (counterexample): on the aggregated edge list
`[(PC, Downregulated_White, 1), (Upregulated_White, G1, 2)]` the code's
column-wise node order (line 109) differs from the claim's edge-interleaved
node order, and the emitted index-referenced edge lists differ accordingly. -/
theorem node_order_columnwise_counterexample :
    allNodes ([⟨"PC", "Downregulated_White", 1⟩,
        ⟨"Upregulated_White", "G1", 2⟩] : List (Edge ℚ))
      ≠ claimNodeOrder ([⟨"PC", "Downregulated_White", 1⟩,
        ⟨"Upregulated_White", "G1", 2⟩] : List (Edge ℚ))
    ∧ indexedLinks ([⟨"PC", "Downregulated_White", 1⟩,
        ⟨"Upregulated_White", "G1", 2⟩] : List (Edge ℚ))
      ≠ claimIndexedLinks ([⟨"PC", "Downregulated_White", 1⟩,
        ⟨"Upregulated_White", "G1", 2⟩] : List (Edge ℚ)) := by
  have h1 : allNodes ([⟨"PC", "Downregulated_White", 1⟩,
      ⟨"Upregulated_White", "G1", 2⟩] : List (Edge ℚ))
      = ["PC", "Upregulated_White", "Downregulated_White", "G1"] := by
    simp [allNodes, firstUniques]
  have h2 : claimNodeOrder ([⟨"PC", "Downregulated_White", 1⟩,
      ⟨"Upregulated_White", "G1", 2⟩] : List (Edge ℚ))
      = ["PC", "Downregulated_White", "Upregulated_White", "G1"] := by
    simp [claimNodeOrder, firstUniques]
  constructor
  · rw [h1, h2]
    decide
  · simp only [indexedLinks, claimIndexedLinks, nodeIndex, h1, h2]
    decide

/-- In a strictly sorted list (irreflexive, asymmetric relation), `take n`
keeps exactly the elements ranked ahead of by fewer than `n` elements. -/
theorem take_eq_filter_countP {β : Type} (S : β → β → Prop) [DecidableRel S]
    (hirr : ∀ x, ¬ S x x) (hasym : ∀ x y, S x y → ¬ S y x) :
    ∀ (l : List β), l.Pairwise S → ∀ n,
      l.take n = l.filter (fun x => decide (l.countP (fun y => decide (S y x)) < n)) := by
  intro l
  induction l with
  | nil => intro _ n; simp
  | cons a t ih =>
    intro hp n
    obtain ⟨hhead, htail⟩ := List.pairwise_cons.mp hp
    have hct : ∀ x ∈ t, (a :: t).countP (fun y => decide (S y x))
        = t.countP (fun y => decide (S y x)) + 1 := by
      intro x hx
      rw [List.countP_cons]
      simp [hhead x hx]
    have hca : (a :: t).countP (fun y => decide (S y a)) = 0 := by
      rw [List.countP_cons]
      have h0 : t.countP (fun y => decide (S y a)) = 0 := by
        rw [List.countP_eq_zero]
        intro y hy
        simp only [decide_eq_true_eq]
        exact hasym a y (hhead y hy)
      simp [h0, hirr a]
    cases n with
    | zero =>
      rw [List.take_zero]
      symm
      rw [List.filter_eq_nil_iff]
      intro x _
      simp
    | succ m =>
      have hpos : (fun x => decide ((a :: t).countP (fun y => decide (S y x)) < m + 1)) a
          = true := by
        simp [hca]
      rw [List.take_succ_cons, List.filter_cons, if_pos hpos]
      have hfeq : t.filter (fun x =>
            decide ((a :: t).countP (fun y => decide (S y x)) < m + 1))
          = t.filter (fun x => decide (t.countP (fun y => decide (S y x)) < m)) := by
        apply List.filter_congr
        intro x hx
        rw [decide_eq_decide, hct x hx]
        omega
      rw [hfeq, ih htail m]

/-- The positions in an enumerated list are strictly increasing. -/
theorem pairwise_fst_lt_enum {γ : Type} (l : List γ) :
    l.enum.Pairwise (fun a b => a.1 < b.1) := by
  have h := List.pairwise_lt_range l.length
  rw [← List.enum_map_fst l] at h
  exact List.pairwise_map.mp h

/-- The original positions stored in the keyed list are strictly increasing. -/
theorem keyed_pairwise_idx_lt {α : Type} (rows : List (FCRow α)) :
    (keyed rows).Pairwise (fun p q => p.2.1 < q.2.1) := by
  rw [keyed, List.pairwise_filterMap]
  refine List.Pairwise.imp ?_ (pairwise_fst_lt_enum rows)
  intro a b hab x hx y hy
  cases hla : a.2.log2fc with
  | none => rw [hla] at hx; simp at hx
  | some va =>
    rw [hla] at hx
    simp only [Option.map_some', Option.mem_def, Option.some.injEq] at hx
    cases hlb : b.2.log2fc with
    | none => rw [hlb] at hy; simp at hy
    | some vb =>
      rw [hlb] at hy
      simp only [Option.map_some', Option.mem_def, Option.some.injEq] at hy
      rw [← hx, ← hy]
      exact hab

theorem descLe_trans {α : Type} [LinearOrderedField α] (a b c : α × ℕ × FCRow α) :
    descLe a b = true → descLe b c = true → descLe a c = true := by
  simp only [descLe, decide_eq_true_eq]
  rintro (h1 | ⟨h1, h1'⟩) (h2 | ⟨h2, h2'⟩)
  · exact Or.inl (lt_trans h2 h1)
  · exact Or.inl (h2 ▸ h1)
  · exact Or.inl (lt_of_lt_of_eq h2 h1.symm)
  · exact Or.inr ⟨h1.trans h2, le_trans h1' h2'⟩

theorem descLe_total {α : Type} [LinearOrderedField α] (a b : α × ℕ × FCRow α) :
    (descLe a b || descLe b a) = true := by
  simp only [descLe, Bool.or_eq_true, decide_eq_true_eq]
  rcases lt_trichotomy a.1 b.1 with h | h | h
  · exact Or.inr (Or.inl h)
  · rcases le_total a.2.1 b.2.1 with h2 | h2
    · exact Or.inl (Or.inr ⟨h, h2⟩)
    · exact Or.inr (Or.inr ⟨h.symm, h2⟩)
  · exact Or.inl (Or.inl h)

theorem ascLe_trans {α : Type} [LinearOrderedField α] (a b c : α × ℕ × FCRow α) :
    ascLe a b = true → ascLe b c = true → ascLe a c = true := by
  simp only [ascLe, decide_eq_true_eq]
  rintro (h1 | ⟨h1, h1'⟩) (h2 | ⟨h2, h2'⟩)
  · exact Or.inl (lt_trans h1 h2)
  · exact Or.inl (lt_of_lt_of_eq h1 h2)
  · exact Or.inl (lt_of_eq_of_lt h1 h2)
  · exact Or.inr ⟨h1.trans h2, le_trans h1' h2'⟩

theorem ascLe_total {α : Type} [LinearOrderedField α] (a b : α × ℕ × FCRow α) :
    (ascLe a b || ascLe b a) = true := by
  simp only [ascLe, Bool.or_eq_true, decide_eq_true_eq]
  rcases lt_trichotomy a.1 b.1 with h | h | h
  · exact Or.inl (Or.inl h)
  · rcases le_total a.2.1 b.2.1 with h2 | h2
    · exact Or.inl (Or.inr ⟨h, h2⟩)
    · exact Or.inr (Or.inr ⟨h.symm, h2⟩)
  · exact Or.inr (Or.inl h)

theorem beatsUp_irrefl {α : Type} [LinearOrderedField α] (x : α × ℕ × FCRow α) :
    ¬ beatsUp x x := by
  simp only [beatsUp]
  rintro (h | ⟨_, h⟩) <;> exact lt_irrefl _ h

theorem beatsUp_asymm {α : Type} [LinearOrderedField α] (y x : α × ℕ × FCRow α) :
    beatsUp y x → ¬ beatsUp x y := by
  simp only [beatsUp]
  rintro (h1 | ⟨h1, h1'⟩) (h2 | ⟨h2, h2'⟩)
  · exact absurd h2 (asymm h1)
  · rw [h2] at h1
    exact lt_irrefl _ h1
  · rw [h1] at h2
    exact lt_irrefl _ h2
  · exact absurd h2' (lt_asymm h1')

theorem beatsDown_irrefl {α : Type} [LinearOrderedField α] (x : α × ℕ × FCRow α) :
    ¬ beatsDown x x := by
  simp only [beatsDown]
  rintro (h | ⟨_, h⟩) <;> exact lt_irrefl _ h

theorem beatsDown_asymm {α : Type} [LinearOrderedField α] (y x : α × ℕ × FCRow α) :
    beatsDown y x → ¬ beatsDown x y := by
  simp only [beatsDown]
  rintro (h1 | ⟨h1, h1'⟩) (h2 | ⟨h2, h2'⟩)
  · exact absurd h2 (asymm h1)
  · rw [h2] at h1
    exact lt_irrefl _ h1
  · rw [h1] at h2
    exact lt_irrefl _ h2
  · exact absurd h2' (lt_asymm h1')

theorem descLe_ne_beatsUp {α : Type} [LinearOrderedField α] (x y : α × ℕ × FCRow α) :
    descLe x y = true → x.2.1 ≠ y.2.1 → beatsUp x y := by
  simp only [descLe, decide_eq_true_eq, beatsUp]
  rintro (h | ⟨h, h'⟩) hne
  · exact Or.inl h
  · exact Or.inr ⟨h.symm, lt_of_le_of_ne h' hne⟩

theorem ascLe_ne_beatsDown {α : Type} [LinearOrderedField α] (x y : α × ℕ × FCRow α) :
    ascLe x y = true → x.2.1 ≠ y.2.1 → beatsDown x y := by
  simp only [ascLe, decide_eq_true_eq, beatsDown]
  rintro (h | ⟨h, h'⟩) hne
  · exact Or.inl h
  · exact Or.inr ⟨h.symm, lt_of_le_of_ne h' hne⟩

/-- A stable sort of the keyed rows followed by `take n` selects, up to
permutation, exactly the keyed rows ranked ahead of by fewer than `n` keyed
rows. -/
theorem sortTake_perm_filter {α : Type} [LinearOrderedField α]
    (le : (α × ℕ × FCRow α) → (α × ℕ × FCRow α) → Bool)
    (S : (α × ℕ × FCRow α) → (α × ℕ × FCRow α) → Prop) [DecidableRel S]
    (htrans : ∀ a b c, le a b = true → le b c = true → le a c = true)
    (htotal : ∀ a b, (le a b || le b a) = true)
    (hirr : ∀ x, ¬ S x x) (hasym : ∀ x y, S x y → ¬ S y x)
    (hcompat : ∀ x y, le x y = true → x.2.1 ≠ y.2.1 → S x y)
    (rows : List (FCRow α)) (n : ℕ) :
    (((keyed rows).mergeSort le).take n).Perm
      ((keyed rows).filter (fun p =>
        decide ((keyed rows).countP (fun q => decide (S q p)) < n))) := by
  have hperm := List.mergeSort_perm (keyed rows) le
  have hsorted := List.sorted_mergeSort htrans htotal (keyed rows)
  have hne : ((keyed rows).mergeSort le).Pairwise (fun p q => p.2.1 ≠ q.2.1) := by
    refine (List.Perm.pairwise_iff (fun h => Ne.symm h) hperm).mpr ?_
    exact List.Pairwise.imp (fun h => Nat.ne_of_lt h) (keyed_pairwise_idx_lt rows)
  have hS : ((keyed rows).mergeSort le).Pairwise S :=
    List.Pairwise.imp (fun h => hcompat _ _ h.1 h.2) (hsorted.and hne)
  rw [take_eq_filter_countP S hirr hasym _ hS n]
  have hc : ((keyed rows).mergeSort le).filter (fun x =>
        decide ((((keyed rows).mergeSort le)).countP (fun y => decide (S y x)) < n))
      = ((keyed rows).mergeSort le).filter (fun x =>
        decide ((keyed rows).countP (fun y => decide (S y x)) < n)) := by
    apply List.filter_congr
    intro x _
    rw [decide_eq_decide, hperm.countP_eq]
  rw [hc]
  exact hperm.filter _

theorem nlargest_length {α : Type} [LinearOrderedField α] (n : ℕ)
    (rows : List (FCRow α)) :
    (nlargest n rows).length = min n (keyed rows).length := by
  rw [nlargest, List.length_map, List.length_take, (List.mergeSort_perm _ _).length_eq]

theorem nsmallest_length {α : Type} [LinearOrderedField α] (n : ℕ)
    (rows : List (FCRow α)) :
    (nsmallest n rows).length = min n (keyed rows).length := by
  rw [nsmallest, List.length_map, List.length_take, (List.mergeSort_perm _ _).length_eq]

/-- C3: the top-N split selects (up to order) exactly the `N / 2` up-direction
rows of largest `log2FC` — a row is kept iff fewer than `N / 2` up rows beat
it, where `q` beats `p` when `q` has strictly larger `log2FC` or equal
`log2FC` and an earlier original position (first-seen wins) — and dually the
`N / 2` down-direction rows of smallest `log2FC`; each half returns
everything that qualifies when fewer than `N / 2` rows qualify; the selected
list has length `min (N/2) #up + min (N/2) #down`, hence at most `N`, and at
most `N - 1` when `N` is odd. -/
theorem top_split_selection_spec {α : Type} [LinearOrderedField α]
    (sig : List (FCRow α)) (N : ℕ) :
    (nlargest (N / 2) (upRows sig)).Perm
        (((keyed (upRows sig)).filter (fun p =>
          decide ((keyed (upRows sig)).countP
            (fun q => decide (beatsUp q p)) < N / 2))).map (fun p => p.2.2))
    ∧ (nsmallest (N / 2) (downRows sig)).Perm
        (((keyed (downRows sig)).filter (fun p =>
          decide ((keyed (downRows sig)).countP
            (fun q => decide (beatsDown q p)) < N / 2))).map (fun p => p.2.2))
    ∧ ((keyed (upRows sig)).length ≤ N / 2 →
        (nlargest (N / 2) (upRows sig)).Perm ((keyed (upRows sig)).map (fun p => p.2.2)))
    ∧ ((keyed (downRows sig)).length ≤ N / 2 →
        (nsmallest (N / 2) (downRows sig)).Perm
          ((keyed (downRows sig)).map (fun p => p.2.2)))
    ∧ (nlargest (N / 2) (upRows sig)).length = min (N / 2) (keyed (upRows sig)).length
    ∧ (nsmallest (N / 2) (downRows sig)).length = min (N / 2) (keyed (downRows sig)).length
    ∧ (topSplit N sig).length ≤ N
    ∧ (N % 2 = 1 → (topSplit N sig).length ≤ N - 1) := by
  have hlen : (topSplit N sig).length
      = min (N / 2) (keyed (upRows sig)).length
        + min (N / 2) (keyed (downRows sig)).length := by
    rw [topSplit, List.length_append, nlargest_length, nsmallest_length]
  refine ⟨?_, ?_, ?_, ?_, nlargest_length _ _, nsmallest_length _ _, ?_, ?_⟩
  · rw [nlargest]
    exact (sortTake_perm_filter descLe beatsUp descLe_trans descLe_total beatsUp_irrefl
      beatsUp_asymm descLe_ne_beatsUp (upRows sig) (N / 2)).map _
  · rw [nsmallest]
    exact (sortTake_perm_filter ascLe beatsDown ascLe_trans ascLe_total beatsDown_irrefl
      beatsDown_asymm ascLe_ne_beatsDown (downRows sig) (N / 2)).map _
  · intro hle
    rw [nlargest, List.take_of_length_le
      (by rw [(List.mergeSort_perm _ _).length_eq]; exact hle)]
    exact (List.mergeSort_perm _ _).map _
  · intro hle
    rw [nsmallest, List.take_of_length_le
      (by rw [(List.mergeSort_perm _ _).length_eq]; exact hle)]
    exact (List.mergeSort_perm _ _).map _
  · have h1 := Nat.min_le_left (N / 2) (keyed (upRows sig)).length
    have h2 := Nat.min_le_left (N / 2) (keyed (downRows sig)).length
    omega
  · intro hodd
    have h1 := Nat.min_le_left (N / 2) (keyed (upRows sig)).length
    have h2 := Nat.min_le_left (N / 2) (keyed (downRows sig)).length
    omega

theorem top_split_selection_spec_witness :
    (topSplit 3 ([⟨"g1", some 2⟩, ⟨"g2", some (-3)⟩] : List (FCRow ℚ))).length ≤ 3 - 1 :=
  (top_split_selection_spec ([⟨"g1", some 2⟩, ⟨"g2", some (-3)⟩] : List (FCRow ℚ))
    3).2.2.2.2.2.2.2 (by decide)

end LipidGeneSankey
